import Mathlib

/-!
Verification development for the nxtp messaging/cache core.

Part 1 embeds `TransfersCache` from
`src/packages/adapters/cache/src/lib/caches/transfers.ts`
(the methods `getLatestNonce`, `getTransfer`, `storeTransfers`, `getPending`,
`addPending`, `removePending`, `getErrors`, `saveError`).

Part 2 embeds `RootManager` from
`src/packages/deployments/contracts/contracts/core/messaging/RootManager.sol`
(`propagate`, `setOutboundRoot`, `addConnector`, `addWatcher`,
`removeWatcher`, `removeConnector`).

Part 3 embeds the Gnosis connectors from
`src/packages/deployments/contracts/contracts/core/messaging/connectors/GnosisConnector.sol`
(`BaseGnosisConnector._verifySender`, `GnosisL2Connector._processMessage`,
`GnosisL1Connector._processMessage`).
-/

/-- Modelled from the spec: the `XTransfer` record type comes from
`@connext/nxtp-utils`, which is not among the given sources.  The spec's data
model lists: `transferId`, `originDomain`, `nonce`, and the three optional
sub-records `xcall`, `execute`, `reconcile`, each "presence + transaction
reference".  A sub-record is modelled by the `transactionHash` it carries
(`Option String`, `none` = null/absent sub-record), which is exactly the part
of the sub-record `storeTransfers` inspects. -/
structure XTransfer where
  transferId : String
  originDomain : String
  nonce : Nat
  xcall : Option String
  execute : Option String
  reconcile : Option String
deriving DecidableEq, Repr

/-- Truthiness of `sub?.transactionHash` in TypeScript: the sub-record must be
present and its hash must be a non-empty string. -/
def hashPresent : Option String → Bool
  | some h => h ≠ ""
  | none => false

/-- The condition guarding `addPending` in `storeTransfers`:
`xcall?.transactionHash && !execute?.transactionHash && !reconcile?.transactionHash`. -/
def pendingCond (t : XTransfer) : Bool :=
  hashPresent t.xcall && !hashPresent t.execute && !hashPresent t.reconcile

/-- The condition guarding `removePending` in `storeTransfers`:
`execute?.transactionHash || reconcile?.transactionHash`. -/
def completeCond (t : XTransfer) : Bool :=
  hashPresent t.execute || hashPresent t.reconcile

/-- Modelled from the spec: the helper `sanitizeNull` (cache `helpers`, not
among the given sources) strips null/undefined fields, so the spread
`\x7b ...sanitizeNull(existing), ...sanitizeNull(transfer) \x7d` in
`storeTransfers` keeps every existing non-null field unless the incoming
record supplies a non-null value for it; the always-present scalar fields
come from the incoming record. -/
def mergeTransfers (existing incoming : XTransfer) : XTransfer :=
  { transferId := incoming.transferId
    originDomain := incoming.originDomain
    nonce := incoming.nonce
    xcall := incoming.xcall.orElse fun _ => existing.xcall
    execute := incoming.execute.orElse fun _ => existing.execute
    reconcile := incoming.reconcile.orElse fun _ => existing.reconcile }

/-- The redis hashes used by `TransfersCache`:
`transfers:transfers`, `transfers:pending`, `transfers:nonce`. -/
@[ext]
structure CacheState where
  transfers : String → Option XTransfer
  pending : String → List String
  nonces : String → Option Nat

def emptyCache : CacheState :=
  { transfers := fun _ => none, pending := fun _ => [], nonces := fun _ => none }

/-- Pointwise update of a string-keyed map. -/
def supd {α : Type} (f : String → α) (k : String) (v : α) : String → α :=
  fun q => if q = k then v else f q

/-- `getLatestNonce`: parse the stored string, defaulting to 0 when no entry
is stored (a stored "0" is truthy in the redis reply and parses to 0). -/
def getLatestNonce (st : CacheState) (domain : String) : Nat :=
  match st.nonces domain with
  | some n => n
  | none => 0

/-- `getTransfer`. -/
def getTransfer (st : CacheState) (transferId : String) : Option XTransfer :=
  st.transfers transferId

/-- `getPending`: the stored array for the domain, `[]` when absent (the
absent/present distinction of the hash field is immaterial here, so the map
carries the parsed list directly). -/
def getPending (st : CacheState) (domain : String) : List String :=
  st.pending domain

/-- `addPending`: append the id unless already present (`includes` check). -/
def addPending (st : CacheState) (domain transferId : String) : CacheState :=
  let currentPending := getPending st domain
  if transferId ∈ currentPending then st
  else { st with pending := supd st.pending domain (currentPending ++ [transferId]) }

/-- `removePending`: `findIndex` + `splice` removes the first occurrence;
no write happens when the id is absent. -/
def removePending (st : CacheState) (domain transferId : String) : CacheState :=
  let currentPending := getPending st domain
  if transferId ∈ currentPending then
    { st with pending := supd st.pending domain (currentPending.erase transferId) }
  else st

/-- The record actually persisted for an incoming transfer:
`existing ? \x7b ...sanitizeNull(existing), ...sanitizeNull(transfer) \x7d : transfer`. -/
def mergedFor (st : CacheState) (u : XTransfer) : XTransfer :=
  match st.transfers u.transferId with
  | some existing => mergeTransfers existing u
  | none => u

/-- The skip check at the top of the `storeTransfers` loop:
`JSON.stringify(transfer) === JSON.stringify(existing)`. -/
def skipFor (st : CacheState) (u : XTransfer) : Bool :=
  st.transfers u.transferId = some u

/-- The transfers-hash and pending-index effects of one iteration of the
`storeTransfers` loop (the `hset` of the merged record, then the
`addPending` / `removePending` branch; `added` is whether the `hset`
created the field, i.e. no record existed before). -/
def stepTP (st : CacheState) (u : XTransfer) : CacheState :=
  if skipFor st u then st
  else
    let m := mergedFor st u
    let added := (st.transfers u.transferId).isNone
    let st1 : CacheState := { st with transfers := supd st.transfers u.transferId (some m) }
    if added && pendingCond m then addPending st1 m.originDomain m.transferId
    else if completeCond m then removePending st1 m.originDomain m.transferId
    else st1

/-- The per-call nonce bookkeeping objects `highestNonceByDomain` and
`nonceDidIncreaseForDomain`; JS objects iterate in insertion order, so they
are association lists (update-in-place or append). -/
structure NonceAcc where
  highest : List (String × Nat)
  didIncrease : List (String × Bool)

def emptyAcc : NonceAcc := { highest := [], didIncrease := [] }

/-- JS object property read. -/
def alGet {α : Type} (l : List (String × α)) (k : String) : Option α :=
  (l.find? fun p => p.1 == k).map fun p => p.2

/-- JS object property write: overwrite in place when the key exists,
otherwise append (insertion order preserved). -/
def alSet {α : Type} (l : List (String × α)) (k : String) (v : α) : List (String × α) :=
  if (l.find? fun p => p.1 == k).isSome then
    l.map fun p => if p.1 == k then (k, v) else p
  else l ++ [(k, v)]

/-- The nonce bookkeeping of one iteration of the `storeTransfers` loop,
over the state as read during the batch (the `transfers:nonce` hash is only
written after the loop).  Faithful to the source: `!currentNonce` is a JS
truthiness check, so a cached 0 triggers a re-read, and the
`nonceDidIncreaseForDomain` flag is set on the initial read as well as on an
actual increase. -/
def stepNonce (st : CacheState) (acc : NonceAcc) (u : XTransfer) : NonceAcc :=
  if skipFor st u then acc
  else
    let m := mergedFor st u
    let d := m.originDomain
    let read : Nat × NonceAcc :=
      match alGet acc.highest d with
      | some c =>
        if c = 0 then
          let c2 := getLatestNonce st d
          (c2, { highest := alSet acc.highest d c2, didIncrease := alSet acc.didIncrease d true })
        else (c, acc)
      | none =>
        let c2 := getLatestNonce st d
        (c2, { highest := alSet acc.highest d c2, didIncrease := alSet acc.didIncrease d true })
    let currentNonce := read.1
    let acc2 := read.2
    if m.nonce > currentNonce then
      { highest := alSet acc2.highest d m.nonce, didIncrease := alSet acc2.didIncrease d true }
    else acc2

/-- One iteration of the `storeTransfers` loop. -/
def storeStep (p : CacheState × NonceAcc) (u : XTransfer) : CacheState × NonceAcc :=
  (stepTP p.1 u, stepNonce p.1 p.2 u)

/-- The final loop of `storeTransfers`: for each entry of
`highestNonceByDomain` (insertion order) whose `nonceDidIncreaseForDomain`
flag is truthy, write the nonce and publish a `NewHighestNonce` event. -/
def publishPhase (st : CacheState) (acc : NonceAcc) : CacheState × List (String × Nat) :=
  acc.highest.foldl
    (fun p dn =>
      if (alGet acc.didIncrease dn.1).getD false then
        ({ p.1 with nonces := supd p.1.nonces dn.1 (some dn.2) }, p.2 ++ [dn])
      else p)
    (st, [])

/-- `storeTransfers`: run the loop over the batch, then write nonces and
publish events.  Returns the new cache state and the published
`NewHighestNonce` events in order. -/
def storeTransfers (st : CacheState) (batch : List XTransfer) : CacheState × List (String × Nat) :=
  let r := batch.foldl storeStep (st, emptyAcc)
  publishPhase r.1 r.2

/-- The `transfers:errors` hash. -/
structure ErrorsState where
  errors : String → List String

def emptyErrors : ErrorsState := { errors := fun _ => [] }

/-- `getErrors`: the stored array, `[]` when absent. -/
def getErrors (st : ErrorsState) (transferId : String) : List String :=
  st.errors transferId

/-- `JSON.stringify` of a string value: wrap in quotes, escaping quote,
backslash and the common control characters. -/
def jsonEscapeChar (c : Char) : String :=
  if c = '"' then "\\\""
  else if c = '\\' then "\\\\"
  else if c = '\n' then "\\n"
  else if c = '\r' then "\\r"
  else if c = '\t' then "\\t"
  else String.singleton c

def jsonStringifyStr (s : String) : String :=
  "\"" ++ (s.data.map jsonEscapeChar).foldl (fun a b => a ++ b) "" ++ "\""

/-- `saveError`: membership is checked against `JSON.stringify(error)` while
the raw `error` string is what gets appended and stored. -/
def saveError (st : ErrorsState) (transferId error : String) : ErrorsState × Bool :=
  let stringified := jsonStringifyStr error
  let currentErrors := getErrors st transferId
  let isNewError := stringified ∉ currentErrors
  if isNewError then
    ({ errors := supd st.errors transferId (currentErrors ++ [error]) }, true)
  else (st, false)

/-!
Part 2: `RootManager.sol`.  Addresses and `bytes32` words are modelled as
`Nat` (0 is the zero address); `uint32` domains as `Nat`.  A reverting call
returns `Except.error`, leaving the caller with the unchanged pre-state.
-/

/-- The storage of `RootManager`: `connectors`, `outboundRoots`, `domains`,
`watchers`, plus the `ProposedOwnable` owner. -/
structure RMState where
  connectors : Nat → Nat
  outboundRoots : Nat → Nat
  domains : List Nat
  watchers : Nat → Bool
  owner : Nat

/-- Pointwise update of a Nat-keyed map. -/
def nupd {α : Type} (f : Nat → α) (k : Nat) (v : α) : Nat → α :=
  fun q => if q = k then v else f q

/-- `addConnector` (modifier `onlyOwner`, modelled from the spec:
`ProposedOwnable.sol` is not among the given sources; per the spec,
administrative calls from a non-owner are rejected with no state mutation):
unconditionally binds the connector and pushes the domain. -/
def addConnector (st : RMState) (caller domain connector : Nat) : Except String RMState :=
  if caller = st.owner then
    Except.ok { st with
      connectors := nupd st.connectors domain connector
      domains := st.domains ++ [domain] }
  else Except.error "!owner"

/-- `addWatcher` (`onlyOwner`). -/
def addWatcher (st : RMState) (caller watcher : Nat) : Except String RMState :=
  if caller = st.owner then
    Except.ok { st with watchers := nupd st.watchers watcher true }
  else Except.error "!owner"

/-- `removeWatcher` (`onlyOwner`). -/
def removeWatcher (st : RMState) (caller watcher : Nat) : Except String RMState :=
  if caller = st.owner then
    Except.ok { st with watchers := nupd st.watchers watcher false }
  else Except.error "!owner"

/-- `setOutboundRoot` (modifier `onlyConnector`:
`require(connectors[_domain] == msg.sender)`). -/
def setOutboundRoot (st : RMState) (caller domain outbound : Nat) : Except String RMState :=
  if st.connectors domain = caller then
    Except.ok { st with outboundRoots := nupd st.outboundRoots domain outbound }
  else Except.error "!connector"

/-- The swap step of `removeConnector`: the first list entry equal to
`domain` is overwritten with `last` (the loop breaks at the first match);
no match leaves the list unchanged. -/
def replaceFirst : List Nat → Nat → Nat → List Nat
  | [], _, _ => []
  | x :: xs, domain, last =>
    if x = domain then last :: xs else x :: replaceFirst xs domain last

/-- `removeConnector` (modifier `onlyWatcher`): delete the binding, then
swap-with-last-and-pop on `domains`.  `domains[domains.length - 1]` reverts
on an empty list, and the `uint8` loop counter overflows (Solidity 0.8
checked arithmetic reverts) when no match occurs among the first 256
entries of a list of length at least 256. -/
def removeConnector (st : RMState) (caller domain : Nat) : Except String RMState :=
  if st.watchers caller then
    if h : st.domains = [] then Except.error "index out of bounds"
    else if 256 ≤ st.domains.length ∧ domain ∉ st.domains.take 256 then
      Except.error "uint8 overflow"
    else
      let last := st.domains.getLast h
      Except.ok { st with
        connectors := nupd st.connectors domain 0
        domains := (replaceFirst st.domains domain last).dropLast }
  else Except.error "!watcher"

/-- `propagate`: the aggregate is `abi.encodePacked(outboundRoots[domains[0]])`
(reverting when `domains` is empty), and every connector with a non-zero
binding is invoked with it, in list order (the `uint8` loop counter
overflows and reverts when the list has length at least 256).  The result is
the list of `(connector, aggregate)` calls made. -/
def propagate (st : RMState) : Except String (List (Nat × Nat)) :=
  if h : st.domains = [] then Except.error "index out of bounds"
  else if 256 ≤ st.domains.length then Except.error "uint8 overflow"
  else
    let aggregate := st.outboundRoots (st.domains.head h)
    Except.ok (st.domains.filterMap fun d =>
      let connector := st.connectors d
      if connector ≠ 0 then some (connector, aggregate) else none)

/-!
Part 3: `GnosisConnector.sol`.  The immutables of `Connector.sol` that the
Gnosis code reads (`AMB`, `ROOT_MANAGER`, `mirrorConnector`, `mirrorDomain`)
form the configuration; the AMB view functions `messageSender`,
`sourceChainId`, `destinationChainId` and `block.chainid` form the
environment of a call.
-/

structure ConnectorCfg where
  amb : Nat
  rootManager : Nat
  mirrorConnector : Nat
  mirrorDomain : Nat

structure AmbEnv where
  messageSender : Nat
  sourceChainId : Nat
  destinationChainId : Nat
  chainid : Nat

/-- `BaseGnosisConnector._verifySender`: `require(msg.sender == AMB)`, then
compare the AMB-reported message sender with the expected address.  The
`Option` is `none` when the `require` reverts. -/
def verifySender (cfg : ConnectorCfg) (env : AmbEnv) (caller expected : Nat) : Option Bool :=
  if caller = cfg.amb then some (env.messageSender = expected) else none

/-- `bytes32(_data)`: the first 32 bytes of the payload as a big-endian
word, zero-padded on the right when shorter. -/
def bytes32OfBytes (bs : List Nat) : Nat :=
  (bs.take 32 ++ List.replicate (32 - (bs.take 32).length) 0).foldl
    (fun a b => a * 256 + b % 256) 0

/-- `GnosisL2Connector._processMessage`: verify the sender is the mirror
connector, the destination chain is this chain, and the source chain is
mainnet (id 1); then `update(bytes32(_data))`.  Modelled from the spec:
`Connector.update` (in `Connector.sol`, not among the given sources) stores
the payload as this domain's new aggregate root, which is the `Except.ok`
value here; any failed check reverts with no mutation. -/
def gnosisL2ProcessMessage (cfg : ConnectorCfg) (env : AmbEnv) (caller : Nat)
    (data : List Nat) : Except String Nat :=
  match verifySender cfg env caller cfg.mirrorConnector with
  | none => Except.error "!bridge"
  | some ok =>
    if ¬ok then Except.error "!l1Connector"
    else if ¬(env.destinationChainId = env.chainid) then Except.error "!destinationChain"
    else if ¬(env.sourceChainId = 1) then Except.error "!sourceChainId"
    else Except.ok (bytes32OfBytes data)

/-- `GnosisL1Connector._processMessage`: verify the sender is the mirror
connector, the destination chain is this chain, the source chain is Gnosis
(id 100), and the payload is exactly 32 bytes; then forward
`setOutboundRoot(mirrorDomain, bytes32(_data))` to the root manager.  The
`Except.ok` value is the forwarded `(domain, root)` call; any failed check
reverts with no call forwarded. -/
def gnosisL1ProcessMessage (cfg : ConnectorCfg) (env : AmbEnv) (caller : Nat)
    (data : List Nat) : Except String (Nat × Nat) :=
  match verifySender cfg env caller cfg.mirrorConnector with
  | none => Except.error "!bridge"
  | some ok =>
    if ¬ok then Except.error "!l2Connector"
    else if ¬(env.destinationChainId = env.chainid) then Except.error "!destinationChain"
    else if ¬(env.sourceChainId = 100) then Except.error "!sourceChainId"
    else if ¬(data.length = 32) then Except.error "!length"
    else Except.ok (cfg.mirrorDomain, bytes32OfBytes data)

/-!
Auxiliary definitions used by the claim statements.
-/

/-- The contract state resulting from an external call: a revert
(`Except.error`) leaves the pre-state intact. -/
def evmCall (st : RMState) (r : Except String RMState) : RMState :=
  match r with
  | Except.ok st2 => st2
  | Except.error _ => st

/-- Whether a call completed without reverting. -/
def exOk {α : Type} : Except String α → Bool
  | Except.ok _ => true
  | Except.error _ => false

/-- A sequence of `addConnector` calls from one caller. -/
def addConnectorRun (st : RMState) (caller : Nat) (calls : List (Nat × Nat)) :
    Except String RMState :=
  calls.foldlM (fun s p => addConnector s caller p.1 p.2) st

/-- Folding the transfers/pending part of the `storeTransfers` loop over a
stream of records. -/
def tpFold (st : CacheState) (l : List XTransfer) : CacheState :=
  l.foldl stepTP st

/-- Running a sequence of `storeTransfers` batches from the empty cache. -/
def runBatches (bs : List (List XTransfer)) : CacheState :=
  bs.foldl (fun st b => (storeTransfers st b).1) emptyCache

/-- The first record of the stream carrying the given transfer id (the
record whose arrival creates the hash field, hence the only one for which
`hset` reports `added`). -/
def firstFor (l : List XTransfer) (tid : String) : Option XTransfer :=
  l.find? fun t => t.transferId == tid

/-- Well-formed sub-record reference: a present sub-record carries a
non-empty transaction hash, so JS truthiness of `sub?.transactionHash`
coincides with presence of the sub-record. -/
def wfOpt (o : Option String) : Prop :=
  hashPresent o = o.isSome

/-- Well-formed transfer record. -/
def wfRec (t : XTransfer) : Prop :=
  wfOpt t.xcall ∧ wfOpt t.execute ∧ wfOpt t.reconcile

/-- The pending-index invariant tying the cache state to the stream of
records merged so far: (1) pending lists are duplicate-free; (2) a record
is stored exactly for the ids seen in the stream; (3) a stored record keeps
the id, well-formedness, origin domain and xcall presence of the stream;
(4) an id sits in the pending index of a domain iff its stored record is a
pending record of that domain and the first record of the stream for the
id was already pending. -/
def cacheInv (pre : List XTransfer) (st : CacheState) : Prop :=
  (∀ D, (st.pending D).Nodup) ∧
  (∀ tid, st.transfers tid = none ↔ firstFor pre tid = none) ∧
  (∀ tid m, st.transfers tid = some m → m.transferId = tid ∧ wfRec m ∧
    ∀ f, firstFor pre tid = some f →
      m.originDomain = f.originDomain ∧ (f.xcall.isSome → m.xcall.isSome)) ∧
  (∀ tid D, tid ∈ st.pending D ↔
    ∃ m f, st.transfers tid = some m ∧ firstFor pre tid = some f ∧
      m.originDomain = D ∧ pendingCond m = true ∧ pendingCond f = true)

/-- Concrete records for the pending-index claim: a record first persisted
without `xcall`, and the update that brings it into the pending state. -/
def c1NoXcall : XTransfer :=
  { transferId := "t", originDomain := "d", nonce := 1
    xcall := none, execute := none, reconcile := none }

def c1WithXcall : XTransfer :=
  { transferId := "t", originDomain := "d", nonce := 1
    xcall := some "x", execute := none, reconcile := none }

/-- Concrete records for the nonce-event claim: a first transfer raising the
watermark to 5, then an unrelated transfer of the same domain with the lower
nonce 3. -/
def c2High : XTransfer :=
  { transferId := "t1", originDomain := "d", nonce := 5
    xcall := some "x1", execute := none, reconcile := none }

def c2Low : XTransfer :=
  { transferId := "t2", originDomain := "d", nonce := 3
    xcall := some "x2", execute := none, reconcile := none }

/-- Concrete records for the idempotence claim: an initial pending record
and a later update of the same transfer carrying only `execute`. -/
def c7First : XTransfer :=
  { transferId := "t", originDomain := "d", nonce := 5
    xcall := some "x", execute := none, reconcile := none }

def c7Update : XTransfer :=
  { transferId := "t", originDomain := "d", nonce := 3
    xcall := none, execute := some "e", reconcile := none }

/-- Concrete cache state for the merge witness: one stored record. -/
def c6Stored : XTransfer :=
  { transferId := "t", originDomain := "d", nonce := 2
    xcall := some "x", execute := some "e", reconcile := some "r" }

def c6Incoming : XTransfer :=
  { transferId := "t", originDomain := "d", nonce := 2
    xcall := none, execute := none, reconcile := none }

def c6State : CacheState :=
  { transfers := fun k => if k = "t" then some c6Stored else none
    pending := fun _ => [], nonces := fun _ => none }

/-- Concrete hub state for the propagate claim: domains 1 and 2 bound to
connectors 10 and 20 with outbound roots 100 and 200, and domain 3 bound to
the zero address. -/
def c4Base : RMState :=
  { connectors := nupd (nupd (nupd (fun _ => 0) 1 10) 2 20) 3 0
    outboundRoots := nupd (nupd (fun _ => 0) 1 100) 2 200
    domains := [1, 2, 3]
    watchers := fun _ => false
    owner := 99 }

/-- The same hub state with domain 2's outbound root changed. -/
def c4Changed : RMState :=
  { c4Base with outboundRoots := nupd c4Base.outboundRoots 2 999 }

/-- A fresh hub state owned by address 1. -/
def c5Fresh : RMState :=
  { connectors := fun _ => 0, outboundRoots := fun _ => 0
    domains := [], watchers := fun _ => false, owner := 1 }

/-- Hub state for the swap-and-pop claim's overflow counterexample: 256
registered entries, all for domain 1, and watcher 5 enrolled. -/
def c10Big : RMState :=
  { connectors := nupd (fun _ => 0) 1 11
    outboundRoots := fun _ => 0
    domains := List.replicate 256 1
    watchers := fun w => w = 5
    owner := 1 }

/-- Hub state for the swap-and-pop witness: domains 7 and 9, watcher 5. -/
def c10Small : RMState :=
  { connectors := nupd (nupd (fun _ => 0) 7 17) 9 19
    outboundRoots := fun _ => 0
    domains := [7, 9]
    watchers := fun w => w = 5
    owner := 1 }

/-- Hub state for the authorization witness: connector 7 bound for domain 5,
no watchers. -/
def c8State : RMState :=
  { connectors := nupd (fun _ => 0) 5 7
    outboundRoots := fun _ => 0
    domains := [5]
    watchers := fun _ => false
    owner := 1 }

/-!
Theorems.  Small helper lemmas first, then one theorem per claim (with
counterexamples and witnesses where required).
-/

theorem supd_self {α : Type} (f : String → α) (k : String) (v : α) :
    supd f k v k = v := by
  simp [supd]

theorem supd_ne {α : Type} (f : String → α) (k : String) (v : α) (q : String)
    (h : q ≠ k) : supd f k v q = f q := by
  simp [supd, h]

theorem nupd_self {α : Type} (f : Nat → α) (k : Nat) (v : α) :
    nupd f k v k = v := by
  simp [nupd]

theorem nupd_ne {α : Type} (f : Nat → α) (k : Nat) (v : α) (q : Nat)
    (h : q ≠ k) : nupd f k v q = f q := by
  simp [nupd, h]

/-- A fold over pairs whose step only touches the nonces of the state
preserves the transfers and pending components. -/
theorem foldl_preserve {β : Type} (f : CacheState × List β → β → CacheState × List β)
    (hf : ∀ p b, ((f p b).1).transfers = (p.1).transfers ∧ ((f p b).1).pending = (p.1).pending)
    (l : List β) (p : CacheState × List β) :
    ((l.foldl f p).1).transfers = (p.1).transfers ∧
    ((l.foldl f p).1).pending = (p.1).pending := by
  induction l generalizing p with
  | nil => exact ⟨rfl, rfl⟩
  | cons b rest ih =>
    have h := hf p b
    have h2 := ih (f p b)
    exact ⟨h2.1.trans h.1, h2.2.trans h.2⟩

/-- The publish phase only writes nonces. -/
theorem publishPhase_fst (st : CacheState) (acc : NonceAcc) :
    ((publishPhase st acc).1).transfers = st.transfers ∧
    ((publishPhase st acc).1).pending = st.pending := by
  exact foldl_preserve
    (fun p dn =>
      if (alGet acc.didIncrease dn.1).getD false then
        ({ p.1 with nonces := supd p.1.nonces dn.1 (some dn.2) }, p.2 ++ [dn])
      else p)
    (by
      intro p b
      constructor <;> (dsimp only; split <;> rfl))
    acc.highest (st, [])

/-- The cache-state component of the `storeTransfers` loop is `tpFold`. -/
theorem foldl_storeStep_fst (batch : List XTransfer) (st : CacheState) (acc : NonceAcc) :
    (batch.foldl storeStep (st, acc)).1 = tpFold st batch := by
  induction batch generalizing st acc with
  | nil => rfl
  | cons u rest ih =>
    simpa [tpFold, storeStep] using ih (stepTP st u) (stepNonce st acc u)

/-- `storeTransfers` leaves the same transfers hash as `tpFold`. -/
theorem storeTransfers_transfers (st : CacheState) (batch : List XTransfer) :
    ((storeTransfers st batch).1).transfers = (tpFold st batch).transfers := by
  show ((publishPhase (batch.foldl storeStep (st, emptyAcc)).1
    (batch.foldl storeStep (st, emptyAcc)).2).1).transfers = _
  rw [(publishPhase_fst _ _).1, foldl_storeStep_fst]

/-- `storeTransfers` leaves the same pending index as `tpFold`. -/
theorem storeTransfers_pending (st : CacheState) (batch : List XTransfer) :
    ((storeTransfers st batch).1).pending = (tpFold st batch).pending := by
  show ((publishPhase (batch.foldl storeStep (st, emptyAcc)).1
    (batch.foldl storeStep (st, emptyAcc)).2).1).pending = _
  rw [(publishPhase_fst _ _).2, foldl_storeStep_fst]

/-- One loop iteration's effect on the transfers hash. -/
theorem stepTP_transfers (st : CacheState) (u : XTransfer) :
    (stepTP st u).transfers =
      if st.transfers u.transferId = some u then st.transfers
      else supd st.transfers u.transferId (some (mergedFor st u)) := by
  by_cases h : st.transfers u.transferId = some u
  · simp [stepTP, skipFor, h]
  · simp only [stepTP, skipFor, h, decide_False, Bool.false_eq_true, if_false, if_neg]
    split
    · simp [addPending, getPending]
      split <;> rfl
    · split
      · simp [removePending, getPending]
        split <;> rfl
      · rfl

/-- `stepTP` neither reads nor keeps the nonces component: overwriting the
nonces commutes with it. -/
theorem stepTP_nonces_free (st : CacheState) (u : XTransfer) (ns : String → Option Nat) :
    stepTP { st with nonces := ns } u = { stepTP st u with nonces := ns } := by
  unfold stepTP skipFor mergedFor addPending removePending getPending
  dsimp only
  split <;> [rfl; skip]
  split
  · split <;> rfl
  · split
    · split <;> rfl
    · rfl

theorem tpFold_nonces_free (l : List XTransfer) (st : CacheState) (ns : String → Option Nat) :
    tpFold { st with nonces := ns } l = { tpFold st l with nonces := ns } := by
  induction l generalizing st with
  | nil => rfl
  | cons u rest ih =>
    show tpFold (stepTP { st with nonces := ns } u) rest = _
    rw [stepTP_nonces_free]
    exact ih (stepTP st u)

theorem tpFold_append (l1 l2 : List XTransfer) (st : CacheState) :
    tpFold st (l1 ++ l2) = tpFold (tpFold st l1) l2 := by
  simp [tpFold, List.foldl_append]

/-- Two states agreeing on transfers and pending keep agreeing on them
under `tpFold` (the fold neither reads nor writes nonces). -/
theorem tpFold_frame (l : List XTransfer) (st1 st2 : CacheState)
    (hT : st1.transfers = st2.transfers) (hP : st1.pending = st2.pending) :
    (tpFold st1 l).transfers = (tpFold st2 l).transfers ∧
    (tpFold st1 l).pending = (tpFold st2 l).pending := by
  have h : st1 = { st2 with nonces := st1.nonces } := CacheState.ext hT hP rfl
  rw [h, tpFold_nonces_free]
  exact ⟨rfl, rfl⟩

/-- Running batches through `storeTransfers` produces the same transfers
hash and pending index as folding the loop body over the flattened stream. -/
theorem runBatches_tp (bs : List (List XTransfer)) :
    (runBatches bs).transfers = (tpFold emptyCache bs.flatten).transfers ∧
    (runBatches bs).pending = (tpFold emptyCache bs.flatten).pending := by
  suffices h : ∀ (bs : List (List XTransfer)) (st : CacheState),
      (bs.foldl (fun s b => (storeTransfers s b).1) st).transfers
        = (tpFold st bs.flatten).transfers ∧
      (bs.foldl (fun s b => (storeTransfers s b).1) st).pending
        = (tpFold st bs.flatten).pending by
    exact h bs emptyCache
  intro bs
  induction bs with
  | nil => intro st; exact ⟨rfl, rfl⟩
  | cons b rest ih =>
    intro st
    have h2 := ih ((storeTransfers st b).1)
    have hfr := tpFold_frame rest.flatten ((storeTransfers st b).1) (tpFold st b)
      (storeTransfers_transfers st b) (storeTransfers_pending st b)
    have hflat : (b :: rest).flatten = b ++ rest.flatten := rfl
    constructor
    · show (rest.foldl (fun s b => (storeTransfers s b).1) ((storeTransfers st b).1)).transfers = _
      rw [h2.1, hfr.1, hflat, tpFold_append]
    · show (rest.foldl (fun s b => (storeTransfers s b).1) ((storeTransfers st b).1)).pending = _
      rw [h2.2, hfr.2, hflat, tpFold_append]

/-- Claim C3: the error ledger does not deduplicate: membership is checked
against `JSON.stringify(error)` while raw strings are stored, so saving the
same error "X" twice returns `true` both times and stores two occurrences —
contradicting the documented `true`-then-`false` behaviour. -/
theorem c3_saveError_dup_eval :
    (saveError emptyErrors "t" "X").2 = true ∧
    (saveError (saveError emptyErrors "t" "X").1 "t" "X").2 = true ∧
    getErrors (saveError (saveError emptyErrors "t" "X").1 "t" "X").1 "t" = ["X", "X"] := by
  decide

/-- Claim C4: `propagate` sends every non-zero connector the same aggregate,
but the aggregate is `outboundRoots[domains[0]]` alone: changing domain 2's
outbound root from 200 to 999 leaves the propagated calls unchanged, so the
aggregate is not sensitive to every registered domain's root (the zero-bound
domain 3 is skipped in both runs). -/
theorem c4_propagate_eval :
    propagate c4Base = Except.ok [(10, 100), (20, 100)] ∧
    propagate c4Changed = Except.ok [(10, 100), (20, 100)] ∧
    c4Base.outboundRoots 2 = 200 ∧ c4Changed.outboundRoots 2 = 999 := by
  exact ⟨rfl, rfl, rfl, rfl⟩

/-- Claim C2 (counterexample evidence): after a first call sets the
watermark of domain "d" to 5, a second call merging an unrelated record with
the lower nonce 3 still publishes `NewHighestNonce("d", 5)` although the
watermark did not increase — the `nonceDidIncreaseForDomain` flag is set on
the initial watermark read. -/
theorem c2_event_without_increase :
    (storeTransfers emptyCache [c2High]).2 = [("d", 5)] ∧
    getLatestNonce (storeTransfers emptyCache [c2High]).1 "d" = 5 ∧
    (storeTransfers (storeTransfers emptyCache [c2High]).1 [c2Low]).2 = [("d", 5)] ∧
    getLatestNonce (storeTransfers (storeTransfers emptyCache [c2High]).1 [c2Low]).1 "d" = 5 := by
  decide

/-- Claim C7 (counterexample evidence): merging `c7Update` a second time
leaves the stored record and the pending index exactly as after the first
merge, but the second call still publishes a `NewHighestNonce` event — the
watermark flag is set on load, so the "no duplicate side effects" part of
idempotence fails. -/
theorem c7_second_merge_publishes :
    (let s1 := (storeTransfers emptyCache [c7First]).1
     let s2 := (storeTransfers s1 [c7Update]).1
     let r3 := storeTransfers s2 [c7Update]
     getTransfer s2 "t" = some (mergeTransfers c7First c7Update) ∧
     getTransfer r3.1 "t" = getTransfer s2 "t" ∧
     getPending r3.1 "d" = getPending s2 "d" ∧
     r3.2 = [("d", 5)]) := by
  decide

/-- Claim C1 (counterexample): a record first persisted without `xcall` and
later brought into the pending state by a merge never enters the pending
index: the latest merged record is pending with origin domain "d", yet
`getPending "d"` does not contain it. -/
theorem c1_counterexample :
    (let s2 := (storeTransfers (storeTransfers emptyCache [c1NoXcall]).1 [c1WithXcall]).1
     getTransfer s2 "t" = some c1WithXcall ∧ pendingCond c1WithXcall = true ∧
     c1WithXcall.originDomain = "d" ∧ "t" ∉ getPending s2 "d") := by
  decide

/-- Claim C5 (counterexample): `addConnector(7, C1)` followed by
`addConnector(7, C2)` leaves domain 7 twice in the domains list (the push is
unconditional), with the binding rebound to C2. -/
theorem c5_counterexample :
    (let s1 := evmCall c5Fresh (addConnector c5Fresh 1 7 10)
     let s2 := evmCall s1 (addConnector s1 1 7 20)
     exOk (addConnector c5Fresh 1 7 10) = true ∧
     exOk (addConnector s1 1 7 20) = true ∧
     s2.domains = [7, 7] ∧ s2.domains.count 7 = 2 ∧ s2.connectors 7 = 20) := by
  decide

/-- Claim C6: merge never regresses — when a stored record has a non-null
sub-record field and the incoming update has that field null, the record
persisted by `storeTransfers([U])` keeps the stored value. -/
theorem c6_merge_never_regresses (st : CacheState) (r u : XTransfer)
    (hex : st.transfers u.transferId = some r) :
    ∃ m, getTransfer ((storeTransfers st [u]).1) u.transferId = some m ∧
      (r.xcall ≠ none → u.xcall = none → m.xcall = r.xcall) ∧
      (r.execute ≠ none → u.execute = none → m.execute = r.execute) ∧
      (r.reconcile ≠ none → u.reconcile = none → m.reconcile = r.reconcile) := by
  have hts : getTransfer ((storeTransfers st [u]).1) u.transferId
      = (stepTP st u).transfers u.transferId := by
    show ((storeTransfers st [u]).1).transfers u.transferId = _
    rw [storeTransfers_transfers]
    rfl
  rw [hts, stepTP_transfers]
  by_cases hsk : st.transfers u.transferId = some u
  · have hru : r = u := by
      rw [hex] at hsk
      exact Option.some_injective _ hsk
    refine ⟨r, ?_, fun _ _ => rfl, fun _ _ => rfl, fun _ _ => rfl⟩
    rw [if_pos hsk, hex]
  · refine ⟨mergeTransfers r u, ?_, ?_, ?_, ?_⟩
    · rw [if_neg hsk, supd_self]
      unfold mergedFor
      rw [hex]
    · intro _ h2
      show u.xcall.orElse (fun _ => r.xcall) = r.xcall
      rw [h2]
      rfl
    · intro _ h2
      show u.execute.orElse (fun _ => r.execute) = r.execute
      rw [h2]
      rfl
    · intro _ h2
      show u.reconcile.orElse (fun _ => r.reconcile) = r.reconcile
      rw [h2]
      rfl

/-- Witness for C6 at a concrete state: stored record with all three
sub-records present, incoming update with all three null. -/
theorem c6_merge_never_regresses_witness :
    c6State.transfers c6Incoming.transferId = some c6Stored ∧
    ∃ m, getTransfer ((storeTransfers c6State [c6Incoming]).1) c6Incoming.transferId = some m ∧
      (c6Stored.xcall ≠ none → c6Incoming.xcall = none → m.xcall = c6Stored.xcall) ∧
      (c6Stored.execute ≠ none → c6Incoming.execute = none → m.execute = c6Stored.execute) ∧
      (c6Stored.reconcile ≠ none → c6Incoming.reconcile = none → m.reconcile = c6Stored.reconcile) :=
  ⟨by decide, c6_merge_never_regresses c6State c6Stored c6Incoming (by decide)⟩

/-- Claim C8: a `setOutboundRoot` call from a caller other than the domain's
registered connector, and a `removeConnector` call from a non-watcher, both
revert, leaving the entire contract state unchanged. -/
theorem c8_auth_failures_reject (st : RMState) (caller domain root caller2 domain2 : Nat)
    (h1 : st.connectors domain ≠ caller) (h2 : st.watchers caller2 = false) :
    setOutboundRoot st caller domain root = Except.error "!connector" ∧
    evmCall st (setOutboundRoot st caller domain root) = st ∧
    removeConnector st caller2 domain2 = Except.error "!watcher" ∧
    evmCall st (removeConnector st caller2 domain2) = st := by
  have e1 : setOutboundRoot st caller domain root = Except.error "!connector" := by
    simp [setOutboundRoot, h1]
  have e2 : removeConnector st caller2 domain2 = Except.error "!watcher" := by
    simp [removeConnector, h2]
  exact ⟨e1, by rw [e1]; rfl, e2, by rw [e2]; rfl⟩

/-- Witness for C8 at a concrete state: connector 7 is bound for domain 5,
caller 8 is not that connector and caller 9 is not a watcher. -/
theorem c8_auth_failures_reject_witness :
    c8State.connectors 5 ≠ 8 ∧ c8State.watchers 9 = false ∧
    (setOutboundRoot c8State 8 5 123 = Except.error "!connector" ∧
     evmCall c8State (setOutboundRoot c8State 8 5 123) = c8State ∧
     removeConnector c8State 9 5 = Except.error "!watcher" ∧
     evmCall c8State (removeConnector c8State 9 5) = c8State) :=
  ⟨by decide, rfl, c8_auth_failures_reject c8State 8 5 123 9 5 (by decide) rfl⟩

/-- Claim C9: each Gnosis connector's message handler, taken on its own,
rejects (reverts, with no aggregate-root update and no `setOutboundRoot`
forwarded) every incoming message whose AMB-reported sender is not the
mirror connector or whose destination/source chain checks fail — the L2
handler expects source chain 1, the L1 handler source chain 100.  The two
handlers are quantified over independent messages, so each conjunct settles
its handler for every input that fails that handler's own checks. -/
theorem c9_gnosis_sender_verification (cfg : ConnectorCfg) (env2 env1 : AmbEnv)
    (caller2 caller1 : Nat) (data2 data1 : List Nat)
    (hL2 : env2.messageSender ≠ cfg.mirrorConnector ∨
      env2.destinationChainId ≠ env2.chainid ∨ env2.sourceChainId ≠ 1)
    (hL1 : env1.messageSender ≠ cfg.mirrorConnector ∨
      env1.destinationChainId ≠ env1.chainid ∨ env1.sourceChainId ≠ 100) :
    (∃ e, gnosisL2ProcessMessage cfg env2 caller2 data2 = Except.error e) ∧
    (∃ e, gnosisL1ProcessMessage cfg env1 caller1 data1 = Except.error e) := by
  constructor
  · by_cases hc : caller2 = cfg.amb
    · by_cases hm : env2.messageSender = cfg.mirrorConnector
      · by_cases hd : env2.destinationChainId = env2.chainid
        · have hs : env2.sourceChainId ≠ 1 := by
            rcases hL2 with h | h | h
            · exact absurd hm h
            · exact absurd hd h
            · exact h
          exact ⟨"!sourceChainId", by simp [gnosisL2ProcessMessage, verifySender, hc, hm, hd, hs]⟩
        · exact ⟨"!destinationChain", by simp [gnosisL2ProcessMessage, verifySender, hc, hm, hd]⟩
      · exact ⟨"!l1Connector", by simp [gnosisL2ProcessMessage, verifySender, hc, hm]⟩
    · exact ⟨"!bridge", by simp [gnosisL2ProcessMessage, verifySender, hc]⟩
  · by_cases hc : caller1 = cfg.amb
    · by_cases hm : env1.messageSender = cfg.mirrorConnector
      · by_cases hd : env1.destinationChainId = env1.chainid
        · have hs : env1.sourceChainId ≠ 100 := by
            rcases hL1 with h | h | h
            · exact absurd hm h
            · exact absurd hd h
            · exact h
          exact ⟨"!sourceChainId", by simp [gnosisL1ProcessMessage, verifySender, hc, hm, hd, hs]⟩
        · exact ⟨"!destinationChain", by simp [gnosisL1ProcessMessage, verifySender, hc, hm, hd]⟩
      · exact ⟨"!l2Connector", by simp [gnosisL1ProcessMessage, verifySender, hc, hm]⟩
    · exact ⟨"!bridge", by simp [gnosisL1ProcessMessage, verifySender, hc]⟩

/-- Witness for C9: AMB 50, root manager 60, mirror connector 70 on mirror
domain 8.  The L2 handler gets a message whose sender and destination checks
pass but whose source chain is 100 (not mainnet), and the L1 handler
symmetrically one whose source chain is 1 (not Gnosis) — each must revert on
its own source-chain check. -/
theorem c9_gnosis_sender_verification_witness :
    ((70 : Nat) ≠ 70 ∨ (5 : Nat) ≠ 5 ∨ (100 : Nat) ≠ 1) ∧
    ((70 : Nat) ≠ 70 ∨ (5 : Nat) ≠ 5 ∨ (1 : Nat) ≠ 100) ∧
    ((∃ e, gnosisL2ProcessMessage ⟨50, 60, 70, 8⟩ ⟨70, 100, 5, 5⟩ 50 [1, 2] = Except.error e) ∧
     (∃ e, gnosisL1ProcessMessage ⟨50, 60, 70, 8⟩ ⟨70, 1, 5, 5⟩ 50 [1, 2] = Except.error e)) :=
  ⟨Or.inr (Or.inr (by decide)), Or.inr (Or.inr (by decide)),
    c9_gnosis_sender_verification ⟨50, 60, 70, 8⟩ ⟨70, 100, 5, 5⟩ ⟨70, 1, 5, 5⟩ 50 50 [1, 2] [1, 2]
      (Or.inr (Or.inr (by decide))) (Or.inr (Or.inr (by decide)))⟩

set_option maxRecDepth 4096 in
/-- Claim C10 (counterexample): with 256 registered entries none of which
matches the requested domain, a watcher's `removeConnector` reverts — the
`uint8` loop counter overflows — instead of popping the last entry. -/
theorem c10_counterexample :
    c10Big.domains ≠ [] ∧ (2 ∉ c10Big.domains) ∧ c10Big.watchers 5 = true ∧
    exOk (removeConnector c10Big 5 2) = false ∧
    removeConnector c10Big 5 2 = Except.error "uint8 overflow" := by
  exact ⟨by decide, by decide, by decide, by decide, rfl⟩

theorem replaceFirst_not_mem (l : List Nat) (d v : Nat) (h : d ∉ l) :
    replaceFirst l d v = l := by
  induction l with
  | nil => rfl
  | cons x xs ih =>
    have hx : x ≠ d := fun he => h (he ▸ List.mem_cons_self x xs)
    simp only [replaceFirst, if_neg hx]
    rw [ih fun hm => h (List.mem_cons_of_mem x hm)]

/-- Claim C10 (amended): provided the domains list holds at most 255
entries (the `uint8` loop counter otherwise overflows and reverts), a
watcher's `removeConnector` on a domain absent from a non-empty list
succeeds, drops the last list entry, and clears the requested domain's
binding while touching nothing else. -/
theorem c10_remove_absent_domain (st : RMState) (caller domain : Nat)
    (hw : st.watchers caller = true) (hne : st.domains ≠ [])
    (hnin : domain ∉ st.domains) (hlen : st.domains.length ≤ 255) :
    ∃ st2, removeConnector st caller domain = Except.ok st2 ∧
      st2.domains = st.domains.dropLast ∧
      st2.domains.length = st.domains.length - 1 ∧
      st2.connectors domain = 0 ∧
      (∀ d, d ≠ domain → st2.connectors d = st.connectors d) ∧
      st2.outboundRoots = st.outboundRoots ∧
      st2.watchers = st.watchers := by
  have hguard : ¬(256 ≤ st.domains.length ∧ domain ∉ st.domains.take 256) := by
    rintro ⟨hlong, _⟩
    omega
  refine ⟨{ st with
      connectors := nupd st.connectors domain 0
      domains := (replaceFirst st.domains domain (st.domains.getLast hne)).dropLast },
    ?_, ?_, ?_, nupd_self _ _ _, fun d hd => nupd_ne _ _ _ _ hd, rfl, rfl⟩
  · unfold removeConnector
    rw [if_pos hw, dif_neg hne, if_neg hguard]
  · show (replaceFirst st.domains domain (st.domains.getLast hne)).dropLast = st.domains.dropLast
    rw [replaceFirst_not_mem st.domains domain _ hnin]
  · show (replaceFirst st.domains domain (st.domains.getLast hne)).dropLast.length
      = st.domains.length - 1
    rw [replaceFirst_not_mem st.domains domain _ hnin, List.length_dropLast]

/-- Witness for the amended C10: domains `[7, 9]`, watcher 5 removes the
absent domain 2, leaving `[7]`. -/
theorem c10_remove_absent_domain_witness :
    c10Small.watchers 5 = true ∧ c10Small.domains ≠ [] ∧ (2 ∉ c10Small.domains) ∧
    c10Small.domains.length ≤ 255 ∧
    (∃ st2, removeConnector c10Small 5 2 = Except.ok st2 ∧
      st2.domains = c10Small.domains.dropLast ∧
      st2.domains.length = c10Small.domains.length - 1 ∧
      st2.connectors 2 = 0 ∧
      (∀ d, d ≠ 2 → st2.connectors d = c10Small.connectors d) ∧
      st2.outboundRoots = c10Small.outboundRoots ∧
      st2.watchers = c10Small.watchers) :=
  ⟨rfl, by decide, by decide, by decide,
    c10_remove_absent_domain c10Small 5 2 rfl (by decide) (by decide) (by decide)⟩

/-- Claim C5 (amended): `addConnector` always appends, so after any sequence
of owner `addConnector` calls every domain occurs in the domains list once
per call that named it (on top of its initial count), and its binding is the
connector of the last call that named it; in particular the double-add of
the counterexample leaves domain 7 twice with binding C2. -/
theorem c5_addConnector_appends (st : RMState) (caller : Nat)
    (calls : List (Nat × Nat)) (h : caller = st.owner) :
    ∃ st2, addConnectorRun st caller calls = Except.ok st2 ∧
      (∀ d, st2.domains.count d = st.domains.count d + (calls.map Prod.fst).count d) ∧
      (∀ d, st2.connectors d =
        (calls.filter fun p => p.1 = d).foldl (fun _ p => p.2) (st.connectors d)) := by
  induction calls generalizing st with
  | nil =>
    exact ⟨st, rfl, fun d => by simp, fun d => by simp⟩
  | cons c rest ih =>
    have hstep : addConnector st caller c.1 c.2 = Except.ok
        { st with connectors := nupd st.connectors c.1 c.2
                  domains := st.domains ++ [c.1] } := by
      simp [addConnector, h]
    obtain ⟨st2, hrun, hcount, hconn⟩ :=
      ih { st with connectors := nupd st.connectors c.1 c.2
                   domains := st.domains ++ [c.1] } h
    refine ⟨st2, ?_, ?_, ?_⟩
    · show (addConnector st caller c.1 c.2 >>= fun s =>
        addConnectorRun s caller rest) = Except.ok st2
      rw [hstep]
      exact hrun
    · intro d
      have h1 := hcount d
      simp only at h1
      rw [h1, List.count_append, List.map_cons, List.count_cons]
      simp only [List.count_nil, List.count_singleton]
      by_cases hdc : c.1 = d
      · simp [hdc]
        omega
      · have hdc2 : d ≠ c.1 := fun he => hdc he.symm
        simp [hdc, hdc2]
    · intro d
      have h1 := hconn d
      simp only at h1
      rw [h1]
      by_cases hdc : c.1 = d
      · simp only [List.filter_cons, hdc, decide_True, List.foldl_cons]
        rw [nupd_self]
        rcases hdc
        rfl
      · have hfil : List.filter (fun p => decide (p.1 = d)) (c :: rest)
            = List.filter (fun p => decide (p.1 = d)) rest := by
          simp [List.filter_cons, hdc]
        rw [hfil, nupd_ne _ _ _ _ fun he => hdc he.symm]

/-!
Support for the pending-index invariant (claim C1).
-/

theorem firstFor_append_ne (pre : List XTransfer) (u : XTransfer) (tid : String)
    (h : u.transferId ≠ tid) : firstFor (pre ++ [u]) tid = firstFor pre tid := by
  unfold firstFor
  rw [List.find?_append]
  have hbe : (u.transferId == tid) = false := beq_eq_false_iff_ne.mpr h
  have h2 : [u].find? (fun t => t.transferId == tid) = none := by
    simp [List.find?, hbe]
  rw [h2, Option.or_none]

theorem firstFor_append_isSome (pre : List XTransfer) (u : XTransfer) (tid : String)
    (f : XTransfer) (h : firstFor pre tid = some f) :
    firstFor (pre ++ [u]) tid = some f := by
  unfold firstFor at *
  rw [List.find?_append, h]
  rfl

theorem firstFor_append_self (pre : List XTransfer) (u : XTransfer)
    (h : firstFor pre u.transferId = none) :
    firstFor (pre ++ [u]) u.transferId = some u := by
  unfold firstFor at *
  rw [List.find?_append, h]
  simp [List.find?]

theorem firstFor_id (l : List XTransfer) (tid : String) (f : XTransfer)
    (h : firstFor l tid = some f) : f.transferId = tid := by
  have h2 := List.find?_some h
  simpa using h2

theorem firstFor_mem (l : List XTransfer) (tid : String) (f : XTransfer)
    (h : firstFor l tid = some f) : f ∈ l :=
  List.mem_of_find?_eq_some h

theorem hashPresent_true_isSome (o : Option String) (h : hashPresent o = true) :
    o.isSome = true := by
  cases o with
  | none => exact absurd h (by simp [hashPresent])
  | some a => rfl

theorem wfOpt_orElse (a b : Option String) (ha : wfOpt a) (hb : wfOpt b) :
    wfOpt (a.orElse fun _ => b) := by
  cases a with
  | none => exact hb
  | some x => exact ha

theorem wfRec_merge (e i : XTransfer) (he : wfRec e) (hi : wfRec i) :
    wfRec (mergeTransfers e i) :=
  ⟨wfOpt_orElse _ _ hi.1 he.1, wfOpt_orElse _ _ hi.2.1 he.2.1,
    wfOpt_orElse _ _ hi.2.2 he.2.2⟩

theorem wfOpt_not_present_none (o : Option String) (hwf : wfOpt o)
    (h : hashPresent o = false) : o = none := by
  cases o with
  | none => rfl
  | some a =>
    rw [wfOpt] at hwf
    rw [hwf] at h
    exact absurd h (by simp)

theorem isSome_orElse_right (a b : Option String) (h : b.isSome = true) :
    (a.orElse fun _ => b).isSome = true := by
  cases a with
  | none => exact h
  | some x => rfl

theorem orElse_eq_none (a b : Option String) (h : (a.orElse fun _ => b) = none) :
    a = none ∧ b = none := by
  cases a with
  | none => exact ⟨rfl, h⟩
  | some x => exact absurd h (by simp)

theorem pendingCond_iff (m : XTransfer) :
    pendingCond m = true ↔
      hashPresent m.xcall = true ∧ hashPresent m.execute = false ∧
      hashPresent m.reconcile = false := by
  unfold pendingCond
  rcases hx : hashPresent m.xcall <;> rcases he : hashPresent m.execute <;>
    rcases hr : hashPresent m.reconcile <;> simp

theorem completeCond_false_iff (m : XTransfer) :
    completeCond m = false ↔
      hashPresent m.execute = false ∧ hashPresent m.reconcile = false := by
  unfold completeCond
  rcases he : hashPresent m.execute <;> rcases hr : hashPresent m.reconcile <;> simp

theorem pendingCond_of_completeCond_true (m : XTransfer) (h : completeCond m = true) :
    pendingCond m = false := by
  rcases hp : pendingCond m
  · rfl
  · rw [pendingCond_iff] at hp
    rw [(completeCond_false_iff m).2 ⟨hp.2.1, hp.2.2⟩] at h
    exact absurd h (by simp)

theorem addPending_transfers (st : CacheState) (d t : String) :
    (addPending st d t).transfers = st.transfers := by
  unfold addPending getPending
  dsimp only
  split <;> rfl

theorem removePending_transfers (st : CacheState) (d t : String) :
    (removePending st d t).transfers = st.transfers := by
  unfold removePending getPending
  dsimp only
  split <;> rfl

theorem mem_addPending (st : CacheState) (d t tid D : String) :
    tid ∈ (addPending st d t).pending D ↔
      tid ∈ st.pending D ∨ (tid = t ∧ D = d) := by
  unfold addPending getPending
  dsimp only
  split
  · rename_i hmem
    constructor
    · exact fun h => Or.inl h
    · intro h
      rcases h with h | h
      · exact h
      · rw [h.1, h.2]
        exact hmem
  · rename_i hmem
    show tid ∈ supd st.pending d (st.pending d ++ [t]) D ↔ _
    by_cases hD : D = d
    · rw [hD, supd_self, List.mem_append, List.mem_singleton]
      constructor
      · intro h
        rcases h with h | h
        · exact Or.inl h
        · exact Or.inr ⟨h, rfl⟩
      · intro h
        rcases h with h | h
        · exact Or.inl h
        · exact Or.inr h.1
    · rw [supd_ne _ _ _ _ hD]
      constructor
      · exact fun h => Or.inl h
      · intro h
        rcases h with h | h
        · exact h
        · exact absurd h.2 hD

theorem mem_removePending (st : CacheState) (d t tid D : String)
    (hnd : (st.pending d).Nodup) :
    tid ∈ (removePending st d t).pending D ↔
      tid ∈ st.pending D ∧ ¬(tid = t ∧ D = d) := by
  unfold removePending getPending
  dsimp only
  split
  · rename_i hmem
    show tid ∈ supd st.pending d ((st.pending d).erase t) D ↔ _
    by_cases hD : D = d
    · rw [hD, supd_self, hnd.mem_erase_iff]
      constructor
      · intro h
        exact ⟨h.2, fun hc => h.1 hc.1⟩
      · intro h
        exact ⟨fun he => h.2 ⟨he, rfl⟩, h.1⟩
    · rw [supd_ne _ _ _ _ hD]
      exact ⟨fun h => ⟨h, fun hc => hD hc.2⟩, fun h => h.1⟩
  · rename_i hmem
    constructor
    · intro h
      refine ⟨h, ?_⟩
      intro hc
      rw [hc.1, hc.2] at h
      exact hmem h
    · exact fun h => h.1

theorem nodup_addPending (st : CacheState) (d t : String)
    (h : ∀ D, (st.pending D).Nodup) (D : String) :
    ((addPending st d t).pending D).Nodup := by
  unfold addPending getPending
  dsimp only
  split
  · exact h D
  · rename_i hmem
    show (supd st.pending d (st.pending d ++ [t]) D).Nodup
    by_cases hD : D = d
    · rw [hD, supd_self, List.nodup_append]
      refine ⟨h d, List.nodup_singleton t, ?_⟩
      intro a ha hb
      rw [List.mem_singleton] at hb
      rw [hb] at ha
      exact absurd ha hmem
    · rw [supd_ne _ _ _ _ hD]
      exact h D

theorem nodup_removePending (st : CacheState) (d t : String)
    (h : ∀ D, (st.pending D).Nodup) (D : String) :
    ((removePending st d t).pending D).Nodup := by
  unfold removePending getPending
  dsimp only
  split
  · show (supd st.pending d ((st.pending d).erase t) D).Nodup
    by_cases hD : D = d
    · rw [hD, supd_self]
      exact (h d).erase t
    · rw [supd_ne _ _ _ _ hD]
      exact h D
  · exact h D

theorem mergeTransfers_transferId (e i : XTransfer) :
    (mergeTransfers e i).transferId = i.transferId := rfl

theorem mergeTransfers_originDomain (e i : XTransfer) :
    (mergeTransfers e i).originDomain = i.originDomain := rfl

theorem mergeTransfers_xcall (e i : XTransfer) :
    (mergeTransfers e i).xcall = i.xcall.orElse fun _ => e.xcall := rfl

theorem mergeTransfers_execute (e i : XTransfer) :
    (mergeTransfers e i).execute = i.execute.orElse fun _ => e.execute := rfl

theorem mergeTransfers_reconcile (e i : XTransfer) :
    (mergeTransfers e i).reconcile = i.reconcile.orElse fun _ => e.reconcile := rfl

theorem stepTP_skip (st : CacheState) (u : XTransfer)
    (h : st.transfers u.transferId = some u) : stepTP st u = st := by
  simp [stepTP, skipFor, h]

theorem stepTP_new (st : CacheState) (u : XTransfer)
    (h : st.transfers u.transferId = none) :
    stepTP st u =
      (if pendingCond u then
        addPending { st with transfers := supd st.transfers u.transferId (some u) }
          u.originDomain u.transferId
      else if completeCond u then
        removePending { st with transfers := supd st.transfers u.transferId (some u) }
          u.originDomain u.transferId
      else { st with transfers := supd st.transfers u.transferId (some u) }) := by
  have hsk : skipFor st u = false := by simp [skipFor, h]
  have hm : mergedFor st u = u := by
    unfold mergedFor
    rw [h]
  simp [stepTP, hsk, hm, h]

theorem stepTP_update (st : CacheState) (u M : XTransfer)
    (hx : st.transfers u.transferId = some M) (hne : M ≠ u) :
    stepTP st u =
      (if completeCond (mergeTransfers M u) then
        removePending
          { st with transfers := supd st.transfers u.transferId (some (mergeTransfers M u)) }
          u.originDomain u.transferId
      else
        { st with transfers := supd st.transfers u.transferId (some (mergeTransfers M u)) }) := by
  have hsk : skipFor st u = false := by simp [skipFor, hx, hne]
  have hm : mergedFor st u = mergeTransfers M u := by
    unfold mergedFor
    rw [hx]
  have hadd : (st.transfers u.transferId).isNone = false := by
    rw [hx]
    rfl
  simp [stepTP, hsk, hm, hadd, mergeTransfers_originDomain, mergeTransfers_transferId]

theorem wfOpt_eq (o : Option String) (h : wfOpt o) : hashPresent o = o.isSome := h

theorem stTrans_proj (st : CacheState) (X : String → Option XTransfer) (tid : String) :
    ({ st with transfers := X } : CacheState).transfers tid = X tid := rfl

/-- One loop iteration preserves the pending-index invariant. -/
theorem cacheInv_step (pre : List XTransfer) (st : CacheState) (u : XTransfer)
    (hinv : cacheInv pre st) (hwfu : wfRec u)
    (hdomu : ∀ f ∈ pre, f.transferId = u.transferId → f.originDomain = u.originDomain) :
    cacheInv (pre ++ [u]) (stepTP st u) := by
  obtain ⟨hnd, hnone, hsome, hmem⟩ := hinv
  by_cases hsk : st.transfers u.transferId = some u
  · rw [stepTP_skip st u hsk]
    have hffeq : ∀ tid, firstFor (pre ++ [u]) tid = firstFor pre tid := by
      intro tid
      by_cases ht : u.transferId = tid
      · rcases hf : firstFor pre tid with _ | f
        · exfalso
          rw [← ht] at hf
          have h0 := (hnone u.transferId).mpr hf
          rw [h0] at hsk
          exact Option.noConfusion hsk
        · exact firstFor_append_isSome pre u tid f hf
      · exact firstFor_append_ne pre u tid ht
    refine ⟨hnd, ?_, ?_, ?_⟩
    · intro tid
      rw [hffeq tid]
      exact hnone tid
    · intro tid m hm
      obtain ⟨h1, h2, h3⟩ := hsome tid m hm
      refine ⟨h1, h2, fun f hf => ?_⟩
      rw [hffeq tid] at hf
      exact h3 f hf
    · intro tid D
      rw [hffeq tid]
      exact hmem tid D
  · cases hx : st.transfers u.transferId with
    | none =>
      have hfn : firstFor pre u.transferId = none := (hnone u.transferId).mp hx
      have hffu : firstFor (pre ++ [u]) u.transferId = some u := firstFor_append_self pre u hfn
      have hffo : ∀ tid, tid ≠ u.transferId → firstFor (pre ++ [u]) tid = firstFor pre tid :=
        fun tid ht => firstFor_append_ne pre u tid fun he => ht he.symm
      have hnp : ∀ D, u.transferId ∉ st.pending D := by
        intro D hmm0
        obtain ⟨m, f, hm, _⟩ := (hmem _ D).mp hmm0
        rw [hx] at hm
        exact Option.noConfusion hm
      have hclause2 : ∀ tid,
          supd st.transfers u.transferId (some u) tid = none ↔
          firstFor (pre ++ [u]) tid = none := by
        intro tid
        by_cases ht : tid = u.transferId
        · rw [ht, supd_self, hffu]
        · rw [supd_ne _ _ _ _ ht, hffo tid ht]
          exact hnone tid
      have hclause3 : ∀ tid m, supd st.transfers u.transferId (some u) tid = some m →
          m.transferId = tid ∧ wfRec m ∧
          ∀ f, firstFor (pre ++ [u]) tid = some f →
            m.originDomain = f.originDomain ∧ (f.xcall.isSome → m.xcall.isSome) := by
        intro tid m hm
        by_cases ht : tid = u.transferId
        · rw [ht, supd_self] at hm
          have hmu : u = m := Option.some.inj hm
          refine ⟨?_, ?_, ?_⟩
          · rw [← hmu, ht]
          · rw [← hmu]
            exact hwfu
          · intro f hf
            rw [ht, hffu] at hf
            have hfu : u = f := Option.some.inj hf
            rw [← hmu, ← hfu]
            exact ⟨rfl, fun hxs => hxs⟩
        · rw [supd_ne _ _ _ _ ht] at hm
          obtain ⟨h1, h2, h3⟩ := hsome tid m hm
          refine ⟨h1, h2, fun f hf => ?_⟩
          rw [hffo tid ht] at hf
          exact h3 f hf
      rw [stepTP_new st u hx]
      by_cases hpc : pendingCond u = true
      · rw [if_pos hpc]
        refine ⟨fun D => nodup_addPending
          { st with transfers := supd st.transfers u.transferId (some u) }
          u.originDomain u.transferId (fun D2 => hnd D2) D, ?_, ?_, ?_⟩
        · intro tid
          rw [addPending_transfers]
          exact hclause2 tid
        · intro tid m hm
          rw [addPending_transfers] at hm
          exact hclause3 tid m hm
        · intro tid D
          rw [mem_addPending]
          by_cases ht : tid = u.transferId
          · constructor
            · intro h
              rcases h with h | h
              · exact absurd h (by rw [ht]; exact hnp D)
              · refine ⟨u, u, ?_, ?_, ?_, hpc, hpc⟩
                · rw [addPending_transfers, stTrans_proj, ht, supd_self]
                · rw [ht, hffu]
                · rw [h.2]
            · rintro ⟨m, f, hm, hf, hod, hpm, hpf⟩
              right
              refine ⟨ht, ?_⟩
              rw [addPending_transfers, stTrans_proj, ht, supd_self] at hm
              have hmu : u = m := Option.some.inj hm
              rw [← hmu] at hod
              exact hod.symm
          · constructor
            · intro h
              rcases h with h | h
              · obtain ⟨m, f, hm, hf, hod, hpm, hpf⟩ := (hmem tid D).mp h
                refine ⟨m, f, ?_, ?_, hod, hpm, hpf⟩
                · rw [addPending_transfers, stTrans_proj, supd_ne _ _ _ _ ht]
                  exact hm
                · rw [hffo tid ht]
                  exact hf
              · exact absurd h.1 ht
            · rintro ⟨m, f, hm, hf, hod, hpm, hpf⟩
              left
              rw [addPending_transfers, stTrans_proj, supd_ne _ _ _ _ ht] at hm
              rw [hffo tid ht] at hf
              exact (hmem tid D).mpr ⟨m, f, hm, hf, hod, hpm, hpf⟩
      · rw [if_neg hpc]
        by_cases hcc : completeCond u = true
        · rw [if_pos hcc]
          refine ⟨fun D => nodup_removePending
            { st with transfers := supd st.transfers u.transferId (some u) }
            u.originDomain u.transferId (fun D2 => hnd D2) D, ?_, ?_, ?_⟩
          · intro tid
            rw [removePending_transfers]
            exact hclause2 tid
          · intro tid m hm
            rw [removePending_transfers] at hm
            exact hclause3 tid m hm
          · intro tid D
            rw [mem_removePending
              { st with transfers := supd st.transfers u.transferId (some u) }
              u.originDomain u.transferId tid D (hnd u.originDomain)]
            by_cases ht : tid = u.transferId
            · constructor
              · intro h
                exact absurd h.1 (by rw [ht]; exact hnp D)
              · rintro ⟨m, f, hm, hf, hod, hpm, hpf⟩
                exfalso
                rw [removePending_transfers, stTrans_proj, ht, supd_self] at hm
                have hmu : u = m := Option.some.inj hm
                rw [← hmu] at hpm
                exact hpc hpm
            · constructor
              · intro h
                obtain ⟨m, f, hm, hf, hod, hpm, hpf⟩ := (hmem tid D).mp h.1
                refine ⟨m, f, ?_, ?_, hod, hpm, hpf⟩
                · rw [removePending_transfers, stTrans_proj, supd_ne _ _ _ _ ht]
                  exact hm
                · rw [hffo tid ht]
                  exact hf
              · rintro ⟨m, f, hm, hf, hod, hpm, hpf⟩
                rw [removePending_transfers, stTrans_proj, supd_ne _ _ _ _ ht] at hm
                rw [hffo tid ht] at hf
                exact ⟨(hmem tid D).mpr ⟨m, f, hm, hf, hod, hpm, hpf⟩, fun hc => ht hc.1⟩
        · rw [if_neg hcc]
          refine ⟨hnd, ?_, ?_, ?_⟩
          · intro tid
            show supd st.transfers u.transferId (some u) tid = none ↔ _
            exact hclause2 tid
          · intro tid m hm
            have hm2 : supd st.transfers u.transferId (some u) tid = some m := hm
            exact hclause3 tid m hm2
          · intro tid D
            show tid ∈ st.pending D ↔ _
            by_cases ht : tid = u.transferId
            · constructor
              · intro h
                exact absurd h (by rw [ht]; exact hnp D)
              · rintro ⟨m, f, hm, hf, hod, hpm, hpf⟩
                exfalso
                have hm2 : supd st.transfers u.transferId (some u) tid = some m := hm
                rw [ht, supd_self] at hm2
                have hmu : u = m := Option.some.inj hm2
                rw [← hmu] at hpm
                exact hpc hpm
            · constructor
              · intro h
                obtain ⟨m, f, hm, hf, hod, hpm, hpf⟩ := (hmem tid D).mp h
                refine ⟨m, f, ?_, ?_, hod, hpm, hpf⟩
                · show supd st.transfers u.transferId (some u) tid = some m
                  rw [supd_ne _ _ _ _ ht]
                  exact hm
                · rw [hffo tid ht]
                  exact hf
              · rintro ⟨m, f, hm, hf, hod, hpm, hpf⟩
                have hm2 : supd st.transfers u.transferId (some u) tid = some m := hm
                rw [supd_ne _ _ _ _ ht] at hm2
                rw [hffo tid ht] at hf
                exact (hmem tid D).mpr ⟨m, f, hm2, hf, hod, hpm, hpf⟩
    | some M =>
      have hMne : M ≠ u := fun he => hsk (by rw [hx, he])
      obtain ⟨f, hf⟩ : ∃ f, firstFor pre u.transferId = some f := by
        rcases hfc : firstFor pre u.transferId with _ | f
        · exfalso
          have h0 := (hnone u.transferId).mpr hfc
          rw [h0] at hx
          exact Option.noConfusion hx
        · exact ⟨f, rfl⟩
      obtain ⟨hMid, hMwf, hMff⟩ := hsome u.transferId M hx
      have hMfod : M.originDomain = f.originDomain := (hMff f hf).1
      have hMfx : f.xcall.isSome → M.xcall.isSome := (hMff f hf).2
      have hfid : f.transferId = u.transferId := firstFor_id pre u.transferId f hf
      have hfmem : f ∈ pre := firstFor_mem pre u.transferId f hf
      have hfod : f.originDomain = u.originDomain := hdomu f hfmem hfid
      have hMod : M.originDomain = u.originDomain := hMfod.trans hfod
      have hffu : firstFor (pre ++ [u]) u.transferId = some f :=
        firstFor_append_isSome pre u u.transferId f hf
      have hffo : ∀ tid, tid ≠ u.transferId → firstFor (pre ++ [u]) tid = firstFor pre tid :=
        fun tid ht => firstFor_append_ne pre u tid fun he => ht he.symm
      have hwfm : wfRec (mergeTransfers M u) := wfRec_merge M u hMwf hwfu
      have hclause2 : ∀ tid,
          supd st.transfers u.transferId (some (mergeTransfers M u)) tid = none ↔
          firstFor (pre ++ [u]) tid = none := by
        intro tid
        by_cases ht : tid = u.transferId
        · rw [ht, supd_self, hffu]
          constructor
          · intro h0
            exact Option.noConfusion h0
          · intro h0
            exact Option.noConfusion h0
        · rw [supd_ne _ _ _ _ ht, hffo tid ht]
          exact hnone tid
      have hclause3 : ∀ tid m,
          supd st.transfers u.transferId (some (mergeTransfers M u)) tid = some m →
          m.transferId = tid ∧ wfRec m ∧
          ∀ f2, firstFor (pre ++ [u]) tid = some f2 →
            m.originDomain = f2.originDomain ∧ (f2.xcall.isSome → m.xcall.isSome) := by
        intro tid m hm
        by_cases ht : tid = u.transferId
        · rw [ht, supd_self] at hm
          have hmm : mergeTransfers M u = m := Option.some.inj hm
          refine ⟨?_, ?_, ?_⟩
          · rw [← hmm, mergeTransfers_transferId, ht]
          · rw [← hmm]
            exact hwfm
          · intro f2 hf2
            rw [ht, hffu] at hf2
            have hff2 : f = f2 := Option.some.inj hf2
            rw [← hmm, ← hff2]
            constructor
            · rw [mergeTransfers_originDomain, ← hfod]
            · intro hxs
              rw [mergeTransfers_xcall]
              exact isSome_orElse_right _ _ (hMfx hxs)
        · rw [supd_ne _ _ _ _ ht] at hm
          obtain ⟨h1, h2, h3⟩ := hsome tid m hm
          refine ⟨h1, h2, fun f2 hf2 => ?_⟩
          rw [hffo tid ht] at hf2
          exact h3 f2 hf2
      rw [stepTP_update st u M hx hMne]
      by_cases hcc : completeCond (mergeTransfers M u) = true
      · rw [if_pos hcc]
        refine ⟨fun D => nodup_removePending
          { st with transfers := supd st.transfers u.transferId (some (mergeTransfers M u)) }
          u.originDomain u.transferId (fun D2 => hnd D2) D, ?_, ?_, ?_⟩
        · intro tid
          rw [removePending_transfers]
          exact hclause2 tid
        · intro tid m hm
          rw [removePending_transfers] at hm
          exact hclause3 tid m hm
        · intro tid D
          rw [mem_removePending
            { st with transfers := supd st.transfers u.transferId (some (mergeTransfers M u)) }
            u.originDomain u.transferId tid D (hnd u.originDomain)]
          by_cases ht : tid = u.transferId
          · constructor
            · intro h
              exfalso
              by_cases hD : D = u.originDomain
              · exact h.2 ⟨ht, hD⟩
              · obtain ⟨m, f2, hm, hf2, hod, hpm, hpf⟩ := (hmem tid D).mp h.1
                rw [ht, hx] at hm
                have hMm : M = m := Option.some.inj hm
                rw [← hMm] at hod
                exact hD (hod.symm.trans hMod)
            · rintro ⟨m, f2, hm, hf2, hod, hpm, hpf⟩
              exfalso
              rw [removePending_transfers, stTrans_proj, ht, supd_self] at hm
              have hmm : mergeTransfers M u = m := Option.some.inj hm
              rw [← hmm] at hpm
              rw [pendingCond_of_completeCond_true _ hcc] at hpm
              exact Bool.noConfusion hpm
          · constructor
            · intro h
              obtain ⟨m, f2, hm, hf2, hod, hpm, hpf⟩ := (hmem tid D).mp h.1
              refine ⟨m, f2, ?_, ?_, hod, hpm, hpf⟩
              · rw [removePending_transfers, stTrans_proj, supd_ne _ _ _ _ ht]
                exact hm
              · rw [hffo tid ht]
                exact hf2
            · rintro ⟨m, f2, hm, hf2, hod, hpm, hpf⟩
              rw [removePending_transfers, stTrans_proj, supd_ne _ _ _ _ ht] at hm
              rw [hffo tid ht] at hf2
              exact ⟨(hmem tid D).mpr ⟨m, f2, hm, hf2, hod, hpm, hpf⟩, fun hc => ht hc.1⟩
      · rw [if_neg hcc]
        have hccf : completeCond (mergeTransfers M u) = false := by
          rcases hcb : completeCond (mergeTransfers M u)
          · rfl
          · exact absurd hcb hcc
        obtain ⟨hef, hrf⟩ := (completeCond_false_iff _).mp hccf
        refine ⟨hnd, ?_, ?_, ?_⟩
        · intro tid
          show supd st.transfers u.transferId (some (mergeTransfers M u)) tid = none ↔ _
          exact hclause2 tid
        · intro tid m hm
          have hm2 : supd st.transfers u.transferId (some (mergeTransfers M u)) tid = some m := hm
          exact hclause3 tid m hm2
        · intro tid D
          show tid ∈ st.pending D ↔ _
          by_cases ht : tid = u.transferId
          · constructor
            · intro h
              obtain ⟨m, f2, hm, hf2, hod, hpm, hpf⟩ := (hmem tid D).mp h
              rw [ht, hx] at hm
              have hMm : M = m := Option.some.inj hm
              rw [ht, hf] at hf2
              have hff2 : f = f2 := Option.some.inj hf2
              refine ⟨mergeTransfers M u, f, ?_, ?_, ?_, ?_, ?_⟩
              · show supd st.transfers u.transferId (some (mergeTransfers M u)) tid
                  = some (mergeTransfers M u)
                rw [ht, supd_self]
              · rw [ht, hffu]
              · rw [mergeTransfers_originDomain]
                rw [← hMm] at hod
                exact hMod.symm.trans hod
              · rw [pendingCond_iff]
                refine ⟨?_, hef, hrf⟩
                rw [← hMm] at hpm
                have hMx : hashPresent M.xcall = true := ((pendingCond_iff M).mp hpm).1
                have hMxs : M.xcall.isSome = true := hashPresent_true_isSome _ hMx
                rw [wfOpt_eq _ hwfm.1, mergeTransfers_xcall]
                exact isSome_orElse_right _ _ hMxs
              · rw [hff2]
                exact hpf
            · rintro ⟨m, f2, hm, hf2, hod, hpm, hpf⟩
              have hm2 : supd st.transfers u.transferId (some (mergeTransfers M u)) tid
                  = some m := hm
              rw [ht, supd_self] at hm2
              have hmm : mergeTransfers M u = m := Option.some.inj hm2
              rw [ht, hffu] at hf2
              have hff2 : f = f2 := Option.some.inj hf2
              refine (hmem tid D).mpr ⟨M, f, ?_, ?_, ?_, ?_, ?_⟩
              · rw [ht, hx]
              · rw [ht, hf]
              · rw [← hmm, mergeTransfers_originDomain] at hod
                exact hMod.trans hod
              · rw [pendingCond_iff]
                refine ⟨?_, ?_, ?_⟩
                · have hpf2 : pendingCond f = true := by
                    rw [hff2]
                    exact hpf
                  have hfx : hashPresent f.xcall = true := ((pendingCond_iff f).mp hpf2).1
                  have hfxs := hashPresent_true_isSome _ hfx
                  rw [wfOpt_eq _ hMwf.1]
                  exact hMfx hfxs
                · have hmen : (mergeTransfers M u).execute = none :=
                    wfOpt_not_present_none _ hwfm.2.1 hef
                  rw [mergeTransfers_execute] at hmen
                  have hMe : M.execute = none := (orElse_eq_none _ _ hmen).2
                  rw [hMe]
                  rfl
                · have hmrn : (mergeTransfers M u).reconcile = none :=
                    wfOpt_not_present_none _ hwfm.2.2 hrf
                  rw [mergeTransfers_reconcile] at hmrn
                  have hMr : M.reconcile = none := (orElse_eq_none _ _ hmrn).2
                  rw [hMr]
                  rfl
              · rw [hff2]
                exact hpf
          · constructor
            · intro h
              obtain ⟨m, f2, hm, hf2, hod, hpm, hpf⟩ := (hmem tid D).mp h
              refine ⟨m, f2, ?_, ?_, hod, hpm, hpf⟩
              · show supd st.transfers u.transferId (some (mergeTransfers M u)) tid = some m
                rw [supd_ne _ _ _ _ ht]
                exact hm
              · rw [hffo tid ht]
                exact hf2
            · rintro ⟨m, f2, hm, hf2, hod, hpm, hpf⟩
              have hm2 : supd st.transfers u.transferId (some (mergeTransfers M u)) tid
                  = some m := hm
              rw [supd_ne _ _ _ _ ht] at hm2
              rw [hffo tid ht] at hf2
              exact (hmem tid D).mpr ⟨m, f2, hm2, hf2, hod, hpm, hpf⟩

/-- The invariant holds initially. -/
theorem cacheInv_nil : cacheInv [] emptyCache := by
  refine ⟨fun D => List.nodup_nil, fun tid => ?_, fun tid m hm => ?_, fun tid D => ?_⟩
  · exact ⟨fun _ => rfl, fun _ => rfl⟩
  · exact Option.noConfusion hm
  · constructor
    · intro h
      exact absurd h (List.not_mem_nil tid)
    · rintro ⟨m, f, hm, _⟩
      exact Option.noConfusion hm

/-- The invariant is preserved by folding the loop body over a stream whose
records are well-formed and domain-consistent. -/
theorem cacheInv_fold (l : List XTransfer) (pre : List XTransfer) (st : CacheState)
    (hinv : cacheInv pre st)
    (hwf : ∀ t ∈ l, wfRec t)
    (hdom : ∀ t ∈ l, ∀ g ∈ pre, g.transferId = t.transferId → g.originDomain = t.originDomain)
    (hdoml : ∀ t1 ∈ l, ∀ t2 ∈ l, t1.transferId = t2.transferId →
      t1.originDomain = t2.originDomain) :
    cacheInv (pre ++ l) (tpFold st l) := by
  induction l generalizing pre st with
  | nil => simpa using hinv
  | cons v rest ih =>
    have hstep := cacheInv_step pre st v hinv (hwf v (List.mem_cons_self v rest))
      (fun g hg hgid => hdom v (List.mem_cons_self v rest) g hg hgid)
    have happ : pre ++ v :: rest = (pre ++ [v]) ++ rest := by simp
    rw [happ]
    show cacheInv ((pre ++ [v]) ++ rest) (tpFold (stepTP st v) rest)
    apply ih
    · exact hstep
    · exact fun t ht => hwf t (List.mem_cons_of_mem v ht)
    · intro t ht g hg hgid
      rcases List.mem_append.mp hg with hg2 | hg2
      · exact hdom t (List.mem_cons_of_mem v ht) g hg2 hgid
      · rw [List.mem_singleton] at hg2
        rw [hg2]
        rw [hg2] at hgid
        exact hdoml v (List.mem_cons_self v rest) t (List.mem_cons_of_mem v ht) hgid
    · exact fun t1 h1 t2 h2 =>
        hdoml t1 (List.mem_cons_of_mem v h1) t2 (List.mem_cons_of_mem v h2)

/-- Claim C1 (amended): over any sequence of `storeTransfers` batches from
the empty cache — with records carrying non-empty hashes in present
sub-records and a consistent origin domain per transfer id — `getPending D`
contains `T` iff the most recently merged record for `T` has origin domain
`D` and is pending (xcall present, execute and reconcile absent), AND the
first record ever persisted for `T` was already pending; the index is only
added to when a record is first persisted, so a record that becomes pending
only through a later merge never appears. -/
theorem c1_pending_index_amended (bs : List (List XTransfer)) (D T : String)
    (hwf : ∀ t ∈ bs.flatten, wfRec t)
    (hdom : ∀ t1 ∈ bs.flatten, ∀ t2 ∈ bs.flatten,
      t1.transferId = t2.transferId → t1.originDomain = t2.originDomain) :
    T ∈ getPending (runBatches bs) D ↔
      ((∃ m, getTransfer (runBatches bs) T = some m ∧
        m.originDomain = D ∧ pendingCond m = true) ∧
       (∃ f, firstFor bs.flatten T = some f ∧ pendingCond f = true)) := by
  have hrb := runBatches_tp bs
  have hinv : cacheInv ([] ++ bs.flatten) (tpFold emptyCache bs.flatten) :=
    cacheInv_fold bs.flatten [] emptyCache cacheInv_nil hwf
      (fun t _ g hg _ => absurd hg (List.not_mem_nil g)) hdom
  rw [List.nil_append] at hinv
  obtain ⟨hnd, hnone, hsome, hmem⟩ := hinv
  show T ∈ (runBatches bs).pending D ↔ _
  rw [hrb.2]
  constructor
  · intro h
    obtain ⟨m, f, hm, hf, hod, hpm, hpf⟩ := (hmem T D).mp h
    constructor
    · refine ⟨m, ?_, hod, hpm⟩
      show (runBatches bs).transfers T = some m
      rw [hrb.1]
      exact hm
    · exact ⟨f, hf, hpf⟩
  · rintro ⟨⟨m, hm, hod, hpm⟩, ⟨f, hf, hpf⟩⟩
    have hm2 : (tpFold emptyCache bs.flatten).transfers T = some m := by
      rw [← hrb.1]
      exact hm
    exact (hmem T D).mpr ⟨m, f, hm2, hf, hod, hpm, hpf⟩

/-- Witness for the amended C1: one batch storing a single pending record
for transfer "t" on domain "d". -/
theorem c1_pending_index_amended_witness :
    (∀ t ∈ [[c1WithXcall]].flatten, wfRec t) ∧
    (∀ t1 ∈ [[c1WithXcall]].flatten, ∀ t2 ∈ [[c1WithXcall]].flatten,
      t1.transferId = t2.transferId → t1.originDomain = t2.originDomain) ∧
    ("t" ∈ getPending (runBatches [[c1WithXcall]]) "d" ↔
      ((∃ m, getTransfer (runBatches [[c1WithXcall]]) "t" = some m ∧
        m.originDomain = "d" ∧ pendingCond m = true) ∧
       (∃ f, firstFor [[c1WithXcall]].flatten "t" = some f ∧ pendingCond f = true))) :=
  ⟨by
    intro t ht
    rw [List.mem_singleton.mp ht]
    exact ⟨rfl, rfl, rfl⟩,
   by
    intro t1 h1 t2 h2 _
    rw [List.mem_singleton.mp h1, List.mem_singleton.mp h2],
   c1_pending_index_amended [[c1WithXcall]] "d" "t"
    (by
      intro t ht
      rw [List.mem_singleton.mp ht]
      exact ⟨rfl, rfl, rfl⟩)
    (by
      intro t1 h1 t2 h2 _
      rw [List.mem_singleton.mp h1, List.mem_singleton.mp h2])⟩

/-- Witness for the amended C5: the two calls of the counterexample run
through the general theorem. -/
theorem c5_addConnector_appends_witness :
    (1 = c5Fresh.owner) ∧
    (∃ st2, addConnectorRun c5Fresh 1 [(7, 10), (7, 20)] = Except.ok st2 ∧
      (∀ d, st2.domains.count d =
        c5Fresh.domains.count d + (([(7, 10), (7, 20)].map Prod.fst).count d)) ∧
      (∀ d, st2.connectors d =
        ([(7, 10), (7, 20)].filter fun p => p.1 = d).foldl
          (fun _ p => p.2) (c5Fresh.connectors d))) :=
  ⟨rfl, c5_addConnector_appends c5Fresh 1 [(7, 10), (7, 20)] rfl⟩
